import Mathlib

/-!
Shallow embedding of the BLIS template trsm_u micro-kernel
(config/template/kernels/3/bli_trsm_u_opt_mxn.c), the unblocked setv
variant (frame/1/setv/bli_setv_unb_var1.c) and the syrk residual-check
harness (testsuite/src/test_syrk.c), together with theorems about them.

Machine floating-point values are modelled as exact rationals (`ℚ`) for
the kernels, and as reals (`ℝ`) for the residual-check harness, whose
final Frobenius norm needs a square root.  A packed micro-panel is
modelled as a total function from (row, column) indices — its fixed
leading dimension (`PACKMR` for A, `PACKNR` for B) makes the index map
of the packed buffer injective, so the two-dimensional view is exact.
The output matrix C of the micro-kernel, addressed through arbitrary
row/column strides `rs_c`, `cs_c`, is modelled as flat strided memory
`ℤ → α`, as is the vector buffer of setv, addressed through `incx`.
-/

/-- A packed panel: the row/column indexed view of a packed buffer. -/
def Mat (α : Type) : Type :=
  ℕ → ℕ → α

/-- Flat strided memory (the micro-kernel's output matrix C, or a vector
buffer addressed through a stride). -/
def Mem (α : Type) : Type :=
  ℤ → α

/-- Write value `v` at position `(i, j)` of a panel. -/
def updMat {α : Type} (M : Mat α) (i j : ℕ) (v : α) : Mat α :=
  fun i' j' => if i' = i ∧ j' = j then v else M i' j'

/-- Write value `v` at address `p` of flat memory. -/
def updMem {α : Type} (M : Mem α) (p : ℤ) (v : α) : Mem α :=
  fun q => if q = p then v else M q

section TrsmKernel

variable {α : Type} [Add α] [Mul α] [Sub α] [Zero α]

/-- Lines 174-181 of bli_trsm_u_opt_mxn.c: `bli_dset0s( rho11 )` followed
by `n_behind` iterations of `bli_daxpys( *alpha12, *chi21, rho11 )`, where
`alpha12 = a12t + l*cs_a` is A[i, i+1+l] (column-major panel, `rs_a = 1`,
`cs_a = PACKMR`) and `chi21 = x21 + l*rs_b` is B[i+1+l, j] (row-major
panel, `rs_b = PACKNR`, `cs_b = 1`). -/
def rhoLoop (a b : Mat α) (i j : ℕ) : ℕ → α
  | 0 => 0
  | l + 1 => rhoLoop a b i j l + a i (i + 1 + l) * b (i + 1 + l) j

/-- Lines 169-192: body of the j-loop for row `i` with `n_behind = nb`:
after the ρ accumulation, `bli_dsubs( rho11, *chi11 )` then
`bli_dscals( *alpha11, *chi11 )`, both in place in the B panel at (i, j),
and finally `bli_dcopys( *chi11, *gamma11 )` into C at address
`i*rs_c + j*cs_c`. -/
def colStep (a : Mat α) (rs_c cs_c : ℤ) (nb i j : ℕ) (st : Mat α × Mem α) :
    Mat α × Mem α :=
  let rho := rhoLoop a st.1 i j nb
  let b1 := updMat st.1 i j (st.1 i j - rho)
  let b2 := updMat b1 i j (a i i * b1 i j)
  (b2, updMem st.2 ((i : ℤ) * rs_c + (j : ℤ) * cs_c) (b2 i j))

/-- Lines 167-193: the column loop `for ( j = 0; j < n; ++j )`. -/
def colLoop (a : Mat α) (rs_c cs_c : ℤ) (nb i : ℕ) (st : Mat α × Mem α) :
    ℕ → Mat α × Mem α
  | 0 => st
  | j + 1 => colStep a rs_c cs_c nb i j (colLoop a rs_c cs_c nb i st j)

/-- Lines 156-194: the outer loop `for ( iter = 0; iter < m; ++iter )`,
with `i = m - iter - 1` and `n_behind = iter`. -/
def iterLoop (n m : ℕ) (a : Mat α) (rs_c cs_c : ℤ) (st : Mat α × Mem α) :
    ℕ → Mat α × Mem α
  | 0 => st
  | iter + 1 => colLoop a rs_c cs_c iter (m - iter - 1)
      (iterLoop n m a rs_c cs_c st iter) n

/-- The template trsm_u micro-kernel body (lines 133-195), generic in the
scalar type.  The register blocksizes `bli_dmr` and `bli_dnr` are
build-time constants of the configuration; they appear here as the
parameters `m` and `n`.  Returns the updated B micro-panel together with
the updated flat C memory. -/
def trsm_u_template (m n : ℕ) (a b : Mat α) (c : Mem α) (rs_c cs_c : ℤ) :
    Mat α × Mem α :=
  iterLoop n m a rs_c cs_c (b, c) m

end TrsmKernel

/-- bli_dtrsm_u_opt_mxn: the double-precision real template micro-kernel,
modelled over exact rationals. -/
def bli_dtrsm_u_opt_mxn (m n : ℕ) (a b : Mat ℚ) (c : Mem ℚ) (rs_c cs_c : ℤ) :
    Mat ℚ × Mem ℚ :=
  trsm_u_template m n a b c rs_c cs_c

section Setv

variable {B X : Type} [Zero B] [DecidableEq B] [Zero X]

/-- Lines 106-111 of bli_setv_unb_var1.c: the zero-fill loop,
`PASTEMAC(chx,set0s)( *chi1 )` followed by `chi1 += incx`, repeated `n`
times, starting at element offset `p` of the flat vector buffer. -/
def zeroFillLoop (x : Mem X) (p incx : ℤ) : ℕ → Mem X
  | 0 => x
  | n + 1 => zeroFillLoop (updMem x p 0) (p + incx) incx n

/-- Lines 115-120 of bli_setv_unb_var1.c: the general copy loop,
`PASTEMAC2(chb,chx,copys)( *beta_cast, *chi1 )` followed by
`chi1 += incx`, repeated `n` times starting at offset `p`; `castf` is the
coercion from the scalar type to the vector element type performed by the
two-type copys macro. -/
def copyFillLoop (castf : B → X) (beta : B) (x : Mem X) (p incx : ℤ) :
    ℕ → Mem X
  | 0 => x
  | n + 1 => copyFillLoop castf beta (updMem x p (castf beta)) (p + incx) incx n

/-- Lines 92-122 of bli_setv_unb_var1.c: the GENTFUNC2-generated
setv_unb_var1 kernel for scalar type `B` (the type of β) and vector
element type `X`.  `if n = 0` is the `bli_zero_dim1( n )` early return;
`if beta = 0` is the `PASTEMAC(chb,eq0)( *beta_cast )` test of β against
the additive identity of its own type. -/
def setv_unb_var1 (castf : B → X) (n : ℕ) (beta : B) (x : Mem X)
    (incx : ℤ) : Mem X :=
  if n = 0 then x
  else if beta = 0 then zeroFillLoop x 0 incx n
  else copyFillLoop castf beta x 0 incx n

end Setv

/-- Complex values with exact rational components, standing in for the
scomplex and dcomplex machine types.  The micro-kernel needs only ring
operations of them. -/
structure CplxQ where
  re : ℚ
  im : ℚ

instance : Add CplxQ := ⟨fun x y => ⟨x.re + y.re, x.im + y.im⟩⟩

instance : Sub CplxQ := ⟨fun x y => ⟨x.re - y.re, x.im - y.im⟩⟩

instance : Mul CplxQ :=
  ⟨fun x y => ⟨x.re * y.re - x.im * y.im, x.re * y.im + x.im * y.re⟩⟩

instance : Zero CplxQ := ⟨⟨0, 0⟩⟩

/-- Modelled from the spec: `bli_strsm_u_ref_mxn`, the single-precision
real reference trsm_u micro-kernel, is only called from the given sources
(bli_trsm_u_opt_mxn.c line 46), not defined in them; per spec §4.4 the
reference micro-kernel performs the same reciprocal-diagonal
back-substitution for every datatype, so it is modelled as the generic
template algorithm at the single-precision real carrier (exact rationals
here, like double). -/
def bli_strsm_u_ref_mxn (m n : ℕ) (a b : Mat ℚ) (c : Mem ℚ)
    (rs_c cs_c : ℤ) : Mat ℚ × Mem ℚ :=
  trsm_u_template m n a b c rs_c cs_c

/-- Lines 39-49 of bli_trsm_u_opt_mxn.c: bli_strsm_u_opt_mxn just calls
the reference implementation. -/
def bli_strsm_u_opt_mxn (m n : ℕ) (a b : Mat ℚ) (c : Mem ℚ)
    (rs_c cs_c : ℤ) : Mat ℚ × Mem ℚ :=
  bli_strsm_u_ref_mxn m n a b c rs_c cs_c

/-- Modelled from the spec: `bli_ctrsm_u_ref_mxn`, the single-precision
complex reference trsm_u micro-kernel, is only called from the given
sources (line 206), not defined in them; modelled as the generic template
algorithm at the complex carrier, with complex multiply/accumulate and no
implicit conjugation (spec §4.4). -/
def bli_ctrsm_u_ref_mxn (m n : ℕ) (a b : Mat CplxQ) (c : Mem CplxQ)
    (rs_c cs_c : ℤ) : Mat CplxQ × Mem CplxQ :=
  trsm_u_template m n a b c rs_c cs_c

/-- Lines 199-209 of bli_trsm_u_opt_mxn.c: bli_ctrsm_u_opt_mxn just calls
the reference implementation. -/
def bli_ctrsm_u_opt_mxn (m n : ℕ) (a b : Mat CplxQ) (c : Mem CplxQ)
    (rs_c cs_c : ℤ) : Mat CplxQ × Mem CplxQ :=
  bli_ctrsm_u_ref_mxn m n a b c rs_c cs_c

/-- Modelled from the spec: `bli_ztrsm_u_ref_mxn`, the double-precision
complex reference trsm_u micro-kernel, is only called from the given
sources (line 220), not defined in them; modelled like the c variant. -/
def bli_ztrsm_u_ref_mxn (m n : ℕ) (a b : Mat CplxQ) (c : Mem CplxQ)
    (rs_c cs_c : ℤ) : Mat CplxQ × Mem CplxQ :=
  trsm_u_template m n a b c rs_c cs_c

/-- Lines 213-223 of bli_trsm_u_opt_mxn.c: bli_ztrsm_u_opt_mxn just calls
the reference implementation. -/
def bli_ztrsm_u_opt_mxn (m n : ℕ) (a b : Mat CplxQ) (c : Mem CplxQ)
    (rs_c cs_c : ℤ) : Mat CplxQ × Mem CplxQ :=
  bli_ztrsm_u_ref_mxn m n a b c rs_c cs_c

/-- A column vector over ℝ, for the residual-check harness. -/
def VecR : Type :=
  ℕ → ℝ

/-- bli_gemv with y-overwrite semantics spelled out:
y := alpha * A * x + beta * y, inner dimension `k`.  One of the
lower-level building blocks the harness assumes correct (its dependencies
are tested first, test_syrk.c lines 77-89). -/
def bli_gemv (k : ℕ) (alpha : ℝ) (A : Mat ℝ) (x : VecR) (beta : ℝ)
    (y : VecR) : VecR :=
  fun i => alpha * Finset.sum (Finset.range k) (fun j => A i j * x j) + beta * y i

/-- `bli_obj_alias_with_trans( BLIS_TRANSPOSE, *a, at )` (line 301): a
transposed view of the same buffer. -/
def transView (A : Mat ℝ) : Mat ℝ :=
  fun i j => A j i

/-- The dense symmetric matrix described by the stored triangle of a
symmetric object (`upper = true`: upper triangle stored). -/
def symmStored (upper : Bool) (C : Mat ℝ) : Mat ℝ :=
  fun i j => if (if upper then i ≤ j else j ≤ i) then C i j else C j i

/-- bli_symv: y := alpha * S * x + beta * y, where S is the symmetric
matrix determined by the stored triangle of C; inner dimension `mdim`. -/
def bli_symv (upper : Bool) (mdim : ℕ) (alpha : ℝ) (C : Mat ℝ) (x : VecR)
    (beta : ℝ) (y : VecR) : VecR :=
  bli_gemv mdim alpha (symmStored upper C) x beta y

/-- bli_subv( x, y ): y := y - x, elementwise. -/
def bli_subv (x y : VecR) : VecR :=
  fun i => y i - x i

/-- bli_fnormv: the Euclidean norm of the first `mdim` entries. -/
noncomputable def bli_fnormv (mdim : ℕ) (v : VecR) : ℝ :=
  Real.sqrt (Finset.sum (Finset.range mdim) (fun i => v i ^ 2))

/-- bli_mksymm: make a symmetric object densely symmetric by mirroring
its stored triangle into the unstored one. -/
def bli_mksymm (upper : Bool) (C : Mat ℝ) : Mat ℝ :=
  symmStored upper C

/-- bli_mktrim: re-zero the unstored region of a triangular/symmetric
object. -/
def bli_mktrim (upper : Bool) (C : Mat ℝ) : Mat ℝ :=
  fun i j => if (if upper then i ≤ j else j ≤ i) then C i j else 0

/-- Lines 190-194 of test_syrk.c: after randomizing C (`crand` is the
matrix bli_randm produced), make it densely symmetric and zero the
unstored triangle. -/
def syrk_prepare_c (upper : Bool) (crand : Mat ℝ) : Mat ℝ :=
  bli_mktrim upper (bli_mksymm upper crand)

/-- Lines 257-329 of test_syrk.c: libblis_test_syrk_check.  `a` is m×k
(transa already folded into the view), `c` is the kernel's actual output,
`c0` the saved original C, `t` the random probe vector (already scaled by
1/m, lines 311-313).  The temporaries v, w, z created by bli_obj_create
are modelled as zero-initialized; each is consumed only through a
`beta = BLIS_ZERO` update before being read. -/
noncomputable def libblis_test_syrk_check (upper : Bool) (m k : ℕ)
    (alpha : ℝ) (a : Mat ℝ) (beta : ℝ) (c c0 : Mat ℝ) (t : VecR) : ℝ :=
  let v := bli_symv upper m 1 c t 0 (fun _ => 0)
  let w := bli_gemv m 1 (transView a) t 0 (fun _ => 0)
  let z := bli_gemv k alpha a w 0 (fun _ => 0)
  let z2 := bli_symv upper m beta c0 t 1 z
  bli_fnormv m (bli_subv z2 v)

theorem updMat_same {α : Type} (M : Mat α) (i j : ℕ) (v : α) :
    updMat M i j v i j = v := by
  simp [updMat]

theorem updMat_ne {α : Type} (M : Mat α) (i j : ℕ) (v : α) {i' j' : ℕ}
    (h : ¬(i' = i ∧ j' = j)) : updMat M i j v i' j' = M i' j' := by
  simp only [updMat, if_neg h]

theorem updMem_same {α : Type} (M : Mem α) (p : ℤ) (v : α) :
    updMem M p v p = v := by
  simp [updMem]

theorem updMem_ne {α : Type} (M : Mem α) (p : ℤ) (v : α) {q : ℤ}
    (h : q ≠ p) : updMem M p v q = M q := by
  simp only [updMem, if_neg h]

theorem rhoLoop_congr {a : Mat ℚ} {b b' : Mat ℚ} {i j : ℕ} (nb : ℕ)
    (h : ∀ l, l < nb → b (i + 1 + l) j = b' (i + 1 + l) j) :
    rhoLoop a b i j nb = rhoLoop a b' i j nb := by
  induction nb with
  | zero => rfl
  | succ k ih =>
      simp only [rhoLoop]
      rw [ih (fun l hl => h l (Nat.lt_succ_of_lt hl)), h k (Nat.lt_succ_self k)]

theorem rhoLoop_congr_left {a a' b : Mat ℚ} {i j : ℕ} (nb : ℕ)
    (h : ∀ l, l < nb → a i (i + 1 + l) = a' i (i + 1 + l)) :
    rhoLoop a b i j nb = rhoLoop a' b i j nb := by
  induction nb with
  | zero => rfl
  | succ k ih =>
      simp only [rhoLoop]
      rw [ih (fun l hl => h l (Nat.lt_succ_of_lt hl)), h k (Nat.lt_succ_self k)]

theorem rhoLoop_eq_sum (a b : Mat ℚ) (i j nb : ℕ) :
    rhoLoop a b i j nb
      = Finset.sum (Finset.range nb)
          (fun l => a i (i + 1 + l) * b (i + 1 + l) j) := by
  induction nb with
  | zero => rfl
  | succ k ih => simp only [rhoLoop]; rw [ih, Finset.sum_range_succ]

theorem colStep_fst_ne (a : Mat ℚ) (rs cs : ℤ) (nb i j : ℕ)
    (st : Mat ℚ × Mem ℚ) {i' j' : ℕ} (h : ¬(i' = i ∧ j' = j)) :
    (colStep a rs cs nb i j st).1 i' j' = st.1 i' j' := by
  simp only [colStep]
  rw [updMat_ne _ _ _ _ h, updMat_ne _ _ _ _ h]

theorem colStep_fst_at (a : Mat ℚ) (rs cs : ℤ) (nb i j : ℕ)
    (st : Mat ℚ × Mem ℚ) :
    (colStep a rs cs nb i j st).1 i j
      = a i i * (st.1 i j - rhoLoop a st.1 i j nb) := by
  simp only [colStep]
  rw [updMat_same, updMat_same]

theorem colStep_snd (a : Mat ℚ) (rs cs : ℤ) (nb i j : ℕ)
    (st : Mat ℚ × Mem ℚ) :
    (colStep a rs cs nb i j st).2
      = updMem st.2 ((i : ℤ) * rs + (j : ℤ) * cs)
          (a i i * (st.1 i j - rhoLoop a st.1 i j nb)) := by
  simp only [colStep]
  rw [updMat_same, updMat_same]

theorem colLoop_fst_ne (a : Mat ℚ) (rs cs : ℤ) (nb i : ℕ)
    (st : Mat ℚ × Mem ℚ) (jend : ℕ) {i' j' : ℕ}
    (h : i' ≠ i ∨ jend ≤ j') :
    (colLoop a rs cs nb i st jend).1 i' j' = st.1 i' j' := by
  induction jend with
  | zero => rfl
  | succ k ih =>
      simp only [colLoop]
      rw [colStep_fst_ne _ _ _ _ _ _ _ (by omega)]
      exact ih (by omega)

theorem colLoop_fst_at (a : Mat ℚ) (rs cs : ℤ) (nb i : ℕ)
    (st : Mat ℚ × Mem ℚ) (jend : ℕ) {j : ℕ} (hj : j < jend) :
    (colLoop a rs cs nb i st jend).1 i j
      = a i i * (st.1 i j - rhoLoop a st.1 i j nb) := by
  induction jend with
  | zero => exact (Nat.not_lt_zero _ hj).elim
  | succ k ih =>
      rcases Nat.lt_succ_iff_lt_or_eq.mp hj with hlt | heq
      · simp only [colLoop]
        rw [colStep_fst_ne _ _ _ _ _ _ _ (by omega)]
        exact ih hlt
      · subst heq
        simp only [colLoop]
        rw [colStep_fst_at]
        rw [colLoop_fst_ne _ _ _ _ _ _ _ (Or.inr (le_refl j)),
          rhoLoop_congr nb
            (fun l _ => colLoop_fst_ne _ _ _ _ _ _ _ (Or.inl (by omega)))]

theorem colLoop_snd_ne (a : Mat ℚ) (rs cs : ℤ) (nb i : ℕ)
    (st : Mat ℚ × Mem ℚ) (jend : ℕ) {q : ℤ}
    (h : ∀ j, j < jend → q ≠ (i : ℤ) * rs + (j : ℤ) * cs) :
    (colLoop a rs cs nb i st jend).2 q = st.2 q := by
  induction jend with
  | zero => rfl
  | succ k ih =>
      simp only [colLoop]
      rw [colStep_snd, updMem_ne _ _ _ (h k (Nat.lt_succ_self k))]
      exact ih (fun j hj => h j (Nat.lt_succ_of_lt hj))

theorem colLoop_snd_at (a : Mat ℚ) (rs cs : ℤ) (nb i : ℕ)
    (st : Mat ℚ × Mem ℚ) (jend : ℕ) {j : ℕ} (hj : j < jend)
    (hsep : ∀ j', j < j' → j' < jend →
      (i : ℤ) * rs + (j' : ℤ) * cs ≠ (i : ℤ) * rs + (j : ℤ) * cs) :
    (colLoop a rs cs nb i st jend).2 ((i : ℤ) * rs + (j : ℤ) * cs)
      = a i i * (st.1 i j - rhoLoop a st.1 i j nb) := by
  induction jend with
  | zero => exact (Nat.not_lt_zero _ hj).elim
  | succ k ih =>
      rcases Nat.lt_succ_iff_lt_or_eq.mp hj with hlt | heq
      · simp only [colLoop]
        rw [colStep_snd,
          updMem_ne _ _ _ (hsep k hlt (Nat.lt_succ_self k)).symm]
        exact ih hlt (fun j' h1 h2 => hsep j' h1 (Nat.lt_succ_of_lt h2))
      · subst heq
        simp only [colLoop]
        rw [colStep_snd, updMem_same]
        rw [colLoop_fst_ne _ _ _ _ _ _ _ (Or.inr (le_refl j)),
          rhoLoop_congr nb
            (fun l _ => colLoop_fst_ne _ _ _ _ _ _ _ (Or.inl (by omega)))]

theorem iterLoop_fst_untouched (n m : ℕ) (a : Mat ℚ) (rs cs : ℤ)
    (st : Mat ℚ × Mem ℚ) (iter : ℕ) (hiter : iter ≤ m) {i j : ℕ}
    (h : i + iter < m ∨ m ≤ i ∨ n ≤ j) :
    (iterLoop n m a rs cs st iter).1 i j = st.1 i j := by
  induction iter with
  | zero => rfl
  | succ k ih =>
      simp only [iterLoop]
      rw [colLoop_fst_ne _ _ _ _ _ _ _ (by omega)]
      exact ih (by omega) (by omega)

theorem iterLoop_fst_stable (n m : ℕ) (a : Mat ℚ) (rs cs : ℤ)
    (st : Mat ℚ × Mem ℚ) (iter iter' : ℕ) (h1 : iter ≤ iter')
    (h2 : iter' ≤ m) {i j : ℕ} (hrow : m ≤ i + iter) :
    (iterLoop n m a rs cs st iter').1 i j
      = (iterLoop n m a rs cs st iter).1 i j := by
  induction iter' with
  | zero =>
      have h0 : iter = 0 := by omega
      rw [h0]
  | succ k ih =>
      rcases Nat.eq_or_lt_of_le h1 with heq | hlt
      · rw [heq]
      · simp only [iterLoop]
        rw [colLoop_fst_ne _ _ _ _ _ _ _ (Or.inl (by omega))]
        exact ih (by omega) (by omega)

theorem iterLoop_ncols_zero (m : ℕ) (a : Mat ℚ) (rs cs : ℤ)
    (st : Mat ℚ × Mem ℚ) (iter : ℕ) :
    iterLoop 0 m a rs cs st iter = st := by
  induction iter with
  | zero => rfl
  | succ k ih => simp only [iterLoop, colLoop]; exact ih

theorem iterLoop_congr_left (n m : ℕ) {a a' : Mat ℚ} (rs cs : ℤ)
    (st : Mat ℚ × Mem ℚ) (iter : ℕ) (hiter : iter ≤ m)
    (h : ∀ i l, i < m → i ≤ l → l < m → a i l = a' i l) :
    iterLoop n m a rs cs st iter = iterLoop n m a' rs cs st iter := by
  induction iter with
  | zero => rfl
  | succ k ih =>
      simp only [iterLoop]
      rw [ih (by omega)]
      have hcol : ∀ st' : Mat ℚ × Mem ℚ, ∀ jend,
          colLoop a rs cs k (m - k - 1) st' jend
            = colLoop a' rs cs k (m - k - 1) st' jend := by
        intro st' jend
        induction jend with
        | zero => rfl
        | succ jj ihj =>
            simp only [colLoop]
            rw [ihj]
            simp only [colStep]
            rw [h (m - k - 1) (m - k - 1) (by omega) (le_refl _) (by omega),
              rhoLoop_congr_left k
                (fun l hl => h (m - k - 1) (m - k - 1 + 1 + l) (by omega)
                  (by omega) (by omega))]
      rw [hcol]

theorem trsm_fst_rec (m n : ℕ) (a b : Mat ℚ) (c : Mem ℚ) (rs cs : ℤ)
    {i j : ℕ} (hi : i < m) (hj : j < n) :
    (trsm_u_template m n a b c rs cs).1 i j
      = a i i * (b i j
          - rhoLoop a (trsm_u_template m n a b c rs cs).1 i j (m - 1 - i)) := by
  have hstab : (trsm_u_template m n a b c rs cs).1 i j
      = (iterLoop n m a rs cs (b, c) (m - 1 - i + 1)).1 i j := by
    exact iterLoop_fst_stable n m a rs cs (b, c) (m - 1 - i + 1) m
      (by omega) (le_refl m) (by omega)
  rw [hstab]
  simp only [iterLoop]
  have hieq : m - (m - 1 - i) - 1 = i := by omega
  rw [hieq]
  rw [colLoop_fst_at _ _ _ _ _ _ _ hj]
  rw [iterLoop_fst_untouched n m a rs cs (b, c) (m - 1 - i) (by omega)
    (by omega)]
  rw [rhoLoop_congr (m - 1 - i) (fun l hl =>
    (iterLoop_fst_stable n m a rs cs (b, c) (m - 1 - i) m (by omega)
      (le_refl m) (by omega)).symm)]
  rfl

theorem trsm_fst_rec_sum (m n : ℕ) (a b : Mat ℚ) (c : Mem ℚ) (rs cs : ℤ)
    {i j : ℕ} (hi : i < m) (hj : j < n) :
    (trsm_u_template m n a b c rs cs).1 i j
      = a i i * (b i j
          - Finset.sum (Finset.Ico (i + 1) m)
              (fun l => a i l * (trsm_u_template m n a b c rs cs).1 l j)) := by
  rw [trsm_fst_rec m n a b c rs cs hi hj, rhoLoop_eq_sum,
    Finset.sum_Ico_eq_sum_range]
  have harg : m - (i + 1) = m - 1 - i := by omega
  rw [harg]

theorem iterLoop_dualwrite (n m : ℕ) (a b : Mat ℚ) (c : Mem ℚ) (rs cs : ℤ)
    (hinj : ∀ i j i' j' : ℕ, i < m → j < n → i' < m → j' < n →
      (i : ℤ) * rs + (j : ℤ) * cs = (i' : ℤ) * rs + (j' : ℤ) * cs →
        i = i' ∧ j = j')
    (iter : ℕ) (hiter : iter ≤ m) {i j : ℕ} (hi : i < m) (hj : j < n)
    (hrow : m ≤ i + iter) :
    (iterLoop n m a rs cs (b, c) iter).2 ((i : ℤ) * rs + (j : ℤ) * cs)
      = (iterLoop n m a rs cs (b, c) iter).1 i j := by
  induction iter with
  | zero => omega
  | succ k ih =>
      simp only [iterLoop]
      by_cases hieq : i = m - k - 1
      · subst hieq
        rw [colLoop_snd_at _ _ _ _ _ _ _ hj (fun j' h1 h2 heq => by
          have := hinj (m - k - 1) j' (m - k - 1) j (by omega) h2 (by omega)
            hj heq
          omega)]
        rw [colLoop_fst_at _ _ _ _ _ _ _ hj]
      · have hrow' : m ≤ i + k := by omega
        rw [colLoop_snd_ne _ _ _ _ _ _ _ (fun j' hj' heq => by
          have := hinj i j (m - k - 1) j' hi hj (by omega) hj' heq
          omega)]
        rw [colLoop_fst_ne _ _ _ _ _ _ _ (Or.inl hieq)]
        exact ih (by omega) hrow'

theorem zeroFillLoop_preserve {X : Type} [Zero X] (x : Mem X) (p incx : ℤ)
    (n : ℕ) {q : ℤ} (h : x q = 0) : zeroFillLoop x p incx n q = 0 := by
  induction n generalizing x p with
  | zero => exact h
  | succ k ih =>
      simp only [zeroFillLoop]
      apply ih
      by_cases hq : q = p
      · subst hq; rw [updMem_same]
      · rw [updMem_ne _ _ _ hq]; exact h

theorem zeroFillLoop_at {X : Type} [Zero X] (x : Mem X) (p incx : ℤ)
    (n : ℕ) {k : ℕ} (hk : k < n) :
    zeroFillLoop x p incx n (p + (k : ℤ) * incx) = 0 := by
  induction n generalizing x p k with
  | zero => exact (Nat.not_lt_zero _ hk).elim
  | succ nn ih =>
      simp only [zeroFillLoop]
      cases k with
      | zero =>
          apply zeroFillLoop_preserve
          have hp : p + ((0 : ℕ) : ℤ) * incx = p := by push_cast; ring
          rw [hp, updMem_same]
      | succ kk =>
          have hp : p + ((kk + 1 : ℕ) : ℤ) * incx
              = (p + incx) + (kk : ℤ) * incx := by push_cast; ring
          rw [hp]
          exact ih _ _ (by omega)

theorem zeroFillLoop_ne {X : Type} [Zero X] (x : Mem X) (p incx : ℤ)
    (n : ℕ) {q : ℤ} (h : ∀ k : ℕ, k < n → q ≠ p + (k : ℤ) * incx) :
    zeroFillLoop x p incx n q = x q := by
  induction n generalizing x p with
  | zero => rfl
  | succ nn ih =>
      simp only [zeroFillLoop]
      have h1 : ∀ k : ℕ, k < nn → q ≠ (p + incx) + (k : ℤ) * incx := by
        intro k hk heq
        exact h (k + 1) (by omega) (by rw [heq]; push_cast; ring)
      rw [ih _ _ h1]
      exact updMem_ne _ _ _
        (fun heq => h 0 (by omega) (by rw [heq]; push_cast; ring))

theorem copyFillLoop_preserve {B X : Type} (castf : B → X) (beta : B)
    (x : Mem X) (p incx : ℤ) (n : ℕ) {q : ℤ} (h : x q = castf beta) :
    copyFillLoop castf beta x p incx n q = castf beta := by
  induction n generalizing x p with
  | zero => exact h
  | succ k ih =>
      simp only [copyFillLoop]
      apply ih
      by_cases hq : q = p
      · subst hq; rw [updMem_same]
      · rw [updMem_ne _ _ _ hq]; exact h

theorem copyFillLoop_at {B X : Type} (castf : B → X) (beta : B)
    (x : Mem X) (p incx : ℤ) (n : ℕ) {k : ℕ} (hk : k < n) :
    copyFillLoop castf beta x p incx n (p + (k : ℤ) * incx) = castf beta := by
  induction n generalizing x p k with
  | zero => exact (Nat.not_lt_zero _ hk).elim
  | succ nn ih =>
      simp only [copyFillLoop]
      cases k with
      | zero =>
          apply copyFillLoop_preserve
          have hp : p + ((0 : ℕ) : ℤ) * incx = p := by push_cast; ring
          rw [hp, updMem_same]
      | succ kk =>
          have hp : p + ((kk + 1 : ℕ) : ℤ) * incx
              = (p + incx) + (kk : ℤ) * incx := by push_cast; ring
          rw [hp]
          exact ih _ _ (by omega)

theorem copyFillLoop_ne {B X : Type} (castf : B → X) (beta : B)
    (x : Mem X) (p incx : ℤ) (n : ℕ) {q : ℤ}
    (h : ∀ k : ℕ, k < n → q ≠ p + (k : ℤ) * incx) :
    copyFillLoop castf beta x p incx n q = x q := by
  induction n generalizing x p with
  | zero => rfl
  | succ nn ih =>
      simp only [copyFillLoop]
      have h1 : ∀ k : ℕ, k < nn → q ≠ (p + incx) + (k : ℤ) * incx := by
        intro k hk heq
        exact h (k + 1) (by omega) (by rw [heq]; push_cast; ring)
      rw [ih _ _ h1]
      exact updMem_ne _ _ _
        (fun heq => h 0 (by omega) (by rw [heq]; push_cast; ring))

/-- C1: For every m×m upper-triangular packed block A whose diagonal
entries store the reciprocals `a i i = (d i)⁻¹` of the true diagonal
values `d i`, and every m×n packed block B, the trsm_u micro-kernel
computes C := A⁻¹·B by back-substitution: each row's working value is
(B[i,j] − ρ) multiplied by the stored reciprocal of A[i,i] (first
conjunct), and consequently the output X solves the upper-triangular
system d i · X[i,j] + Σ over l > i of A[i,l]·X[l,j] = B[i,j] (second
conjunct), i.e. X = A⁻¹·B.  The spec's concrete 1×1 scenario is checked
in the witness. -/
theorem trsm_u_solves (m n : ℕ) (a b : Mat ℚ) (c : Mem ℚ) (rs cs : ℤ)
    (d : ℕ → ℚ) (hd : ∀ i, i < m → d i ≠ 0 ∧ a i i = (d i)⁻¹)
    {i j : ℕ} (hi : i < m) (hj : j < n) :
    (bli_dtrsm_u_opt_mxn m n a b c rs cs).1 i j
        = a i i * (b i j - Finset.sum (Finset.Ico (i + 1) m)
            (fun l => a i l * (bli_dtrsm_u_opt_mxn m n a b c rs cs).1 l j))
      ∧ d i * (bli_dtrsm_u_opt_mxn m n a b c rs cs).1 i j
          + Finset.sum (Finset.Ico (i + 1) m)
              (fun l => a i l * (bli_dtrsm_u_opt_mxn m n a b c rs cs).1 l j)
          = b i j := by
  simp only [bli_dtrsm_u_opt_mxn]
  have hrec := trsm_fst_rec_sum m n a b c rs cs hi hj
  refine ⟨hrec, ?_⟩
  rw [hrec]
  obtain ⟨hdne, hrecip⟩ := hd i hi
  rw [hrecip, ← mul_assoc, mul_inv_cancel₀ hdne, one_mul]
  ring

/-- Witness for C1 at the spec's concrete scenario: m = n = 1,
A = [[2.0]] stored as its reciprocal 0.5, B = [[4.0]]; the solve equation
2·x = 4 holds and the kernel's output is C = [[2.0]]. -/
theorem trsm_u_solves_witness :
    (2 : ℚ) * (bli_dtrsm_u_opt_mxn 1 1 (fun _ _ => (1 : ℚ)/2)
        (fun _ _ => 4) (fun _ => 0) 1 1).1 0 0
      + Finset.sum (Finset.Ico (0 + 1) 1)
          (fun l => (1 : ℚ)/2 * (bli_dtrsm_u_opt_mxn 1 1
            (fun _ _ => (1 : ℚ)/2) (fun _ _ => 4) (fun _ => 0) 1 1).1 l 0)
      = 4
    ∧ (bli_dtrsm_u_opt_mxn 1 1 (fun _ _ => (1 : ℚ)/2) (fun _ _ => 4)
        (fun _ => 0) 1 1).1 0 0 = 2 := by
  constructor
  · exact (trsm_u_solves 1 1 (fun _ _ => (1 : ℚ)/2) (fun _ _ => 4)
      (fun _ => 0) 1 1 (fun _ => 2)
      (fun i _ => ⟨by norm_num, by norm_num⟩) (by norm_num) (by norm_num)).2
  · norm_num [bli_dtrsm_u_opt_mxn, trsm_u_template, iterLoop, colLoop,
      colStep, rhoLoop, updMat, updMem]

/-- C2: after the trsm_u micro-kernel returns, for every row i < m and
column j < n, the value written back into the B micro-panel at [i,j]
exactly equals the value written into the output matrix C at the strided
address i·rs_c + j·cs_c, provided the strides address the m×n region
injectively (distinct logical elements occupy distinct memory). -/
theorem trsm_u_dual_write (m n : ℕ) (a b : Mat ℚ) (c : Mem ℚ) (rs cs : ℤ)
    (hinj : ∀ i j i' j' : ℕ, i < m → j < n → i' < m → j' < n →
      (i : ℤ) * rs + (j : ℤ) * cs = (i' : ℤ) * rs + (j' : ℤ) * cs →
        i = i' ∧ j = j')
    {i j : ℕ} (hi : i < m) (hj : j < n) :
    (bli_dtrsm_u_opt_mxn m n a b c rs cs).2 ((i : ℤ) * rs + (j : ℤ) * cs)
      = (bli_dtrsm_u_opt_mxn m n a b c rs cs).1 i j := by
  simp only [bli_dtrsm_u_opt_mxn, trsm_u_template]
  exact iterLoop_dualwrite n m a b c rs cs hinj m (le_refl m) hi hj
    (by omega)

/-- Witness for C2: a 2×2 solve with row stride 2 and column stride 1;
the C memory cell addressed for element (1,1) holds exactly the panel
value at (1,1). -/
theorem trsm_u_dual_write_witness :
    (bli_dtrsm_u_opt_mxn 2 2 (fun i j => if i = j then (1 : ℚ)/2 else 3)
        (fun i j => (i : ℚ) + (j : ℚ) + 1) (fun _ => 0) 2 1).2
        (((1 : ℕ) : ℤ) * 2 + ((1 : ℕ) : ℤ) * 1)
      = (bli_dtrsm_u_opt_mxn 2 2 (fun i j => if i = j then (1 : ℚ)/2 else 3)
          (fun i j => (i : ℚ) + (j : ℚ) + 1) (fun _ => 0) 2 1).1 1 1 :=
  trsm_u_dual_write 2 2 _ _ _ 2 1
    (fun i j i' j' hi hj hi' hj' heq => by omega)
    (by norm_num) (by norm_num)

/-- C3: the trsm_u micro-kernel processes rows in reverse order: at outer
iteration `iter` the row is i = m − 1 − iter, and n_behind = iter equals
exactly the number of rows already finalized (i + 1 + iter = m, so the
rows below i are precisely the iter rows i+1, …, m−1).  The accumulation
ρ for row i at column j, computed by the inner loop from the panel state
of that iteration with n_behind terms, equals the sum of A[i,l]·x[l,j]
over exactly the already-solved rows l > i at their final values —
neither omitting nor overcounting terms. -/
theorem trsm_u_n_behind (m n : ℕ) (a b : Mat ℚ) (c : Mem ℚ) (rs cs : ℤ)
    {iter j : ℕ} (hiter : iter < m) (hj : j < n) :
    (m - 1 - iter) + 1 + iter = m
    ∧ rhoLoop a (iterLoop n m a rs cs (b, c) iter).1 (m - 1 - iter) j iter
        = Finset.sum (Finset.Ico ((m - 1 - iter) + 1) m)
            (fun l => a (m - 1 - iter) l
              * (bli_dtrsm_u_opt_mxn m n a b c rs cs).1 l j) := by
  refine ⟨by omega, ?_⟩
  simp only [bli_dtrsm_u_opt_mxn, trsm_u_template]
  rw [rhoLoop_congr iter (fun l hl =>
    (iterLoop_fst_stable n m a rs cs (b, c) iter m (le_of_lt hiter)
      (le_refl m) (by omega)).symm)]
  rw [rhoLoop_eq_sum, Finset.sum_Ico_eq_sum_range]
  have harg : m - ((m - 1 - iter) + 1) = iter := by omega
  rw [harg]

/-- Witness for C3: a 2×2 system at outer iteration 1 (row 0, one row
already finalized). -/
theorem trsm_u_n_behind_witness :
    (2 - 1 - 1) + 1 + 1 = 2
    ∧ rhoLoop (fun i j => if i = j then (1 : ℚ)/2 else 3)
        (iterLoop 1 2 (fun i j => if i = j then (1 : ℚ)/2 else 3) 1 1
          ((fun _ _ => (4 : ℚ)), (fun _ => 0)) 1).1 (2 - 1 - 1) 0 1
        = Finset.sum (Finset.Ico ((2 - 1 - 1) + 1) 2)
            (fun l => (fun i j => if i = j then (1 : ℚ)/2 else 3)
              (2 - 1 - 1) l
              * (bli_dtrsm_u_opt_mxn 2 1
                  (fun i j => if i = j then (1 : ℚ)/2 else 3)
                  (fun _ _ => (4 : ℚ)) (fun _ => 0) 1 1).1 l 0) :=
  trsm_u_n_behind 2 1 (fun i j => if i = j then (1 : ℚ)/2 else 3)
    (fun _ _ => (4 : ℚ)) (fun _ => 0) 1 1 (by norm_num) (by norm_num)

/-- C8: solving with A equal to the identity — all stored diagonal
reciprocals equal to 1 and all off-diagonal (strictly upper) elements
equal to 0 — returns the B micro-panel unchanged at every position, for
every m×n input block B. -/
theorem trsm_u_identity (m n : ℕ) (a b : Mat ℚ) (c : Mem ℚ) (rs cs : ℤ)
    (hdiag : ∀ i, i < m → a i i = 1)
    (hoff : ∀ i l, i < m → i < l → l < m → a i l = 0) :
    ∀ i j, (bli_dtrsm_u_opt_mxn m n a b c rs cs).1 i j = b i j := by
  intro i j
  by_cases hi : i < m
  · by_cases hj : j < n
    · have hrec := trsm_fst_rec_sum m n a b c rs cs hi hj
      have hsum : Finset.sum (Finset.Ico (i + 1) m)
          (fun l => a i l * (trsm_u_template m n a b c rs cs).1 l j) = 0 := by
        apply Finset.sum_eq_zero
        intro l hl
        rw [Finset.mem_Ico] at hl
        rw [hoff i l hi (by omega) hl.2, zero_mul]
      simp only [bli_dtrsm_u_opt_mxn]
      rw [hrec, hsum, hdiag i hi, one_mul, sub_zero]
    · simp only [bli_dtrsm_u_opt_mxn, trsm_u_template]
      exact iterLoop_fst_untouched n m a rs cs (b, c) m (le_refl m)
        (Or.inr (Or.inr (by omega)))
  · simp only [bli_dtrsm_u_opt_mxn, trsm_u_template]
    exact iterLoop_fst_untouched n m a rs cs (b, c) m (le_refl m)
      (Or.inr (Or.inl (by omega)))

/-- Witness for C8: a 3×2 identity solve leaves the panel value at (0,1)
unchanged. -/
theorem trsm_u_identity_witness :
    (bli_dtrsm_u_opt_mxn 3 2 (fun i j => if i = j then (1 : ℚ) else 0)
        (fun i j => (i : ℚ) + 2 * (j : ℚ) + 5) (fun _ => 0) 1 3).1 0 1
      = (fun i j => (i : ℚ) + 2 * (j : ℚ) + 5) 0 1 :=
  trsm_u_identity 3 2 (fun i j => if i = j then (1 : ℚ) else 0)
    (fun i j => (i : ℚ) + 2 * (j : ℚ) + 5) (fun _ => 0) 1 3
    (fun i _ => by simp)
    (fun i l _ hil _ => by
      show (if i = l then (1 : ℚ) else 0) = 0
      rw [if_neg (by omega)]) 0 1

/-- C9: the trsm_u micro-kernel never reads elements of the packed
triangular block A outside the stored upper triangle: if two A panels
agree on the diagonal and strictly-upper entries (columns l ≥ i of every
row i < m), the kernel produces identical outputs — both the B panel and
the C memory — so values in the strictly-lower region cannot influence
the result. -/
theorem trsm_u_no_lower_reads (m n : ℕ) (a a' b : Mat ℚ) (c : Mem ℚ)
    (rs cs : ℤ)
    (h : ∀ i l, i < m → i ≤ l → l < m → a i l = a' i l) :
    bli_dtrsm_u_opt_mxn m n a b c rs cs
      = bli_dtrsm_u_opt_mxn m n a' b c rs cs := by
  simp only [bli_dtrsm_u_opt_mxn, trsm_u_template]
  exact iterLoop_congr_left n m rs cs (b, c) m (le_refl m) h

/-- Witness for C9: two 2×2 A panels that differ only strictly below the
diagonal (5 versus 7 there) produce identical kernel outputs. -/
theorem trsm_u_no_lower_reads_witness :
    bli_dtrsm_u_opt_mxn 2 2
        (fun i l => if l < i then (5 : ℚ) else (i : ℚ) + (l : ℚ) + 1)
        (fun i j => (i : ℚ) + (j : ℚ)) (fun _ => 0) 2 1
      = bli_dtrsm_u_opt_mxn 2 2
          (fun i l => if l < i then (7 : ℚ) else (i : ℚ) + (l : ℚ) + 1)
          (fun i j => (i : ℚ) + (j : ℚ)) (fun _ => 0) 2 1 :=
  trsm_u_no_lower_reads 2 2 _ _ _ _ 2 1
    (fun i l _ hil _ => by
      show (if l < i then (5 : ℚ) else (i : ℚ) + (l : ℚ) + 1)
        = (if l < i then (7 : ℚ) else (i : ℚ) + (l : ℚ) + 1)
      rw [if_neg (Nat.not_lt.mpr hil), if_neg (Nat.not_lt.mpr hil)])

/-- C10: for the single-precision real (s), single-precision complex (c)
and double-precision complex (z) datatypes, the "optimized" trsm_u entry
point computes exactly the same function as the corresponding reference
implementation, since each delegates to it unconditionally with unchanged
arguments. -/
theorem trsm_u_opt_delegates :
    (∀ (m n : ℕ) (a b : Mat ℚ) (c : Mem ℚ) (rs cs : ℤ),
      bli_strsm_u_opt_mxn m n a b c rs cs = bli_strsm_u_ref_mxn m n a b c rs cs)
    ∧ (∀ (m n : ℕ) (a b : Mat CplxQ) (c : Mem CplxQ) (rs cs : ℤ),
      bli_ctrsm_u_opt_mxn m n a b c rs cs = bli_ctrsm_u_ref_mxn m n a b c rs cs)
    ∧ (∀ (m n : ℕ) (a b : Mat CplxQ) (c : Mem CplxQ) (rs cs : ℤ),
      bli_ztrsm_u_opt_mxn m n a b c rs cs = bli_ztrsm_u_ref_mxn m n a b c rs cs) :=
  ⟨fun _ _ _ _ _ _ _ => rfl, fun _ _ _ _ _ _ _ => rfl,
    fun _ _ _ _ _ _ _ => rfl⟩

/-- C5: for every scalar type B, vector element type X and every n ≥ 0,
when setv is invoked with a scalar β exactly equal to the additive
identity of its type, the implementation takes the zero-fill path — the
result is the zero-fill loop's, not the general copy loop's — and every
addressed element (offsets k·incx for k < n) holds exactly the canonical
zero of the element type, regardless of what the coercion of β would
have produced. -/
theorem setv_zero_fill {B X : Type} [Zero B] [DecidableEq B] [Zero X]
    (castf : B → X) (n : ℕ) (beta : B) (x : Mem X) (incx : ℤ)
    (hb : beta = 0) :
    setv_unb_var1 castf n beta x incx = zeroFillLoop x 0 incx n
    ∧ ∀ k : ℕ, k < n →
        setv_unb_var1 castf n beta x incx ((k : ℤ) * incx) = 0 := by
  have hpath : setv_unb_var1 castf n beta x incx
      = zeroFillLoop x 0 incx n := by
    by_cases hn : n = 0
    · subst hn; simp only [setv_unb_var1, if_pos rfl]; rfl
    · simp only [setv_unb_var1, if_neg hn, if_pos hb]
  refine ⟨hpath, fun k hk => ?_⟩
  rw [hpath]
  have haddr : (k : ℤ) * incx = 0 + (k : ℤ) * incx := by ring
  rw [haddr]
  exact zeroFillLoop_at x 0 incx n hk

/-- Witness for C5: filling 4 elements of a ℚ vector at stride 2 with
β = 0 takes the zero-fill path and the third addressed element (offset
2·2 = 4) becomes exactly 0. -/
theorem setv_zero_fill_witness :
    setv_unb_var1 (id : ℚ → ℚ) 4 0 (fun _ => 7) 2
      = zeroFillLoop (fun _ => (7 : ℚ)) 0 2 4
    ∧ setv_unb_var1 (id : ℚ → ℚ) 4 0 (fun _ => 7) 2 (((2 : ℕ) : ℤ) * 2)
      = 0 :=
  ⟨(setv_zero_fill (id : ℚ → ℚ) 4 0 (fun _ => 7) 2 rfl).1,
    (setv_zero_fill (id : ℚ → ℚ) 4 0 (fun _ => 7) 2 rfl).2 2 (by norm_num)⟩

/-- C6: for every n > 0 and every scalar β not equal to the additive
identity of its type, setv takes the general path: it copies β, coerced
to the vector's element type, into each of the n addressed elements
(offsets k·incx for k < n, the pointer advancing by the stride `incx`
between consecutive assignments). -/
theorem setv_general_copy {B X : Type} [Zero B] [DecidableEq B] [Zero X]
    (castf : B → X) (n : ℕ) (beta : B) (x : Mem X) (incx : ℤ)
    (hb : beta ≠ 0) (hn : 0 < n) :
    setv_unb_var1 castf n beta x incx = copyFillLoop castf beta x 0 incx n
    ∧ ∀ k : ℕ, k < n →
        setv_unb_var1 castf n beta x incx ((k : ℤ) * incx) = castf beta := by
  have hpath : setv_unb_var1 castf n beta x incx
      = copyFillLoop castf beta x 0 incx n := by
    simp only [setv_unb_var1, if_neg (by omega : ¬n = 0), if_neg hb]
  refine ⟨hpath, fun k hk => ?_⟩
  rw [hpath]
  have haddr : (k : ℤ) * incx = 0 + (k : ℤ) * incx := by ring
  rw [haddr]
  exact copyFillLoop_at castf beta x 0 incx n hk

/-- Witness for C6: filling 3 elements at stride 2 with β = 5 ≠ 0 takes
the copy path and the second addressed element becomes 5. -/
theorem setv_general_copy_witness :
    setv_unb_var1 (id : ℚ → ℚ) 3 5 (fun _ => 7) 2
      = copyFillLoop (id : ℚ → ℚ) 5 (fun _ => (7 : ℚ)) 0 2 3
    ∧ setv_unb_var1 (id : ℚ → ℚ) 3 5 (fun _ => 7) 2 (((1 : ℕ) : ℤ) * 2)
      = id (5 : ℚ) :=
  ⟨(setv_general_copy (id : ℚ → ℚ) 3 5 (fun _ => 7) 2 (by norm_num)
      (by norm_num)).1,
    (setv_general_copy (id : ℚ → ℚ) 3 5 (fun _ => 7) 2 (by norm_num)
      (by norm_num)).2 1 (by norm_num)⟩

/-- C7: calling setv with n = 0 leaves the vector memory untouched and
returns (first conjunct); calling the trsm_u micro-kernel with m = 0 or
n = 0 leaves both the B panel and the C memory untouched (second
conjunct); and when setv fills n elements at stride incx, every memory
address that is not one of the n addressed offsets k·incx — e.g. the
interleaved elements for stride 2 — is never written (third conjunct). -/
theorem empty_dims_no_op {B X : Type} [Zero B] [DecidableEq B] [Zero X]
    (castf : B → X) (beta : B) (x : Mem X) (incx : ℤ) (n' : ℕ)
    (m n : ℕ) (a b : Mat ℚ) (c : Mem ℚ) (rs cs : ℤ) :
    setv_unb_var1 castf 0 beta x incx = x
    ∧ (m = 0 ∨ n = 0 → bli_dtrsm_u_opt_mxn m n a b c rs cs = (b, c))
    ∧ ∀ q : ℤ, (∀ k : ℕ, k < n' → q ≠ (k : ℤ) * incx) →
        setv_unb_var1 castf n' beta x incx q = x q := by
  refine ⟨rfl, ?_, ?_⟩
  · rintro (hm | hn)
    · subst hm; rfl
    · subst hn
      simp only [bli_dtrsm_u_opt_mxn, trsm_u_template]
      exact iterLoop_ncols_zero m a rs cs (b, c) m
  · intro q hq
    have hq' : ∀ k : ℕ, k < n' → q ≠ 0 + (k : ℤ) * incx := by
      intro k hk
      have := hq k hk
      omega
    simp only [setv_unb_var1]
    by_cases hn : n' = 0
    · rw [if_pos hn]
    · rw [if_neg hn]
      by_cases hb : beta = 0
      · rw [if_pos hb]
        exact zeroFillLoop_ne x 0 incx n' hq'
      · rw [if_neg hb]
        exact copyFillLoop_ne castf beta x 0 incx n' hq'

/-- Witness for C7: the spec's stride-2 scenario — filling 4 elements at
stride 2 — never writes the interleaved odd address 1 (its old value 7
survives), and a 0×3 trsm_u solve returns its inputs unchanged. -/
theorem empty_dims_no_op_witness :
    setv_unb_var1 (id : ℚ → ℚ) 4 0 (fun _ => 7) 2 1 = (fun _ => (7 : ℚ)) 1
    ∧ bli_dtrsm_u_opt_mxn 0 3 (fun _ _ => (9 : ℚ)) (fun _ _ => 4)
        (fun _ => 0) 1 1 = ((fun _ _ => 4), (fun _ => 0)) :=
  ⟨(empty_dims_no_op (id : ℚ → ℚ) 0 (fun _ => (7 : ℚ)) 2 4 0 3
      (fun _ _ => (9 : ℚ)) (fun _ _ => 4) (fun _ => 0) 1 1).2.2 1
      (by intro k hk; omega),
    (empty_dims_no_op (id : ℚ → ℚ) 0 (fun _ => (7 : ℚ)) 2 4 0 3
      (fun _ _ => (9 : ℚ)) (fun _ _ => 4) (fun _ => 0) 1 1).2.1
      (Or.inl rfl)⟩

/-- C4: the syrk residual-check harness computes the probe product
v = C_result·t against the kernel's actual output, independently computes
z = β·(C_orig·t) + α·(A·(Aᵗ·t)) using only the gemv/symv/vector
primitives (the embedding of the check contains no syrk), and returns as
residual the norm of v − z (first conjunct, with the symmetric operands
read through their stored triangle); and the experiment zeroes the
unstored triangle of the symmetric input before the run: every
strictly-lower entry (row j+1+i, column j) of the prepared upper-stored C
is 0, and symmetrically for lower-stored (second conjunct). -/
theorem syrk_check_residual (upper : Bool) (m k : ℕ) (alpha beta : ℝ)
    (a c c0 : Mat ℝ) (t : VecR) :
    libblis_test_syrk_check upper m k alpha a beta c c0 t
      = bli_fnormv m (fun i =>
          Finset.sum (Finset.range m) (fun j => symmStored upper c i j * t j)
          - (beta * Finset.sum (Finset.range m)
                (fun j => symmStored upper c0 i j * t j)
             + alpha * Finset.sum (Finset.range k)
                (fun j => a i j * Finset.sum (Finset.range m)
                  (fun l => a l j * t l))))
    ∧ (∀ (crand : Mat ℝ) (i j : ℕ),
        syrk_prepare_c true crand (j + 1 + i) j = 0
        ∧ syrk_prepare_c false crand j (j + 1 + i) = 0) := by
  constructor
  · simp only [libblis_test_syrk_check, bli_symv, bli_gemv, bli_subv,
      transView]
    congr 1
    funext i
    simp only [bli_subv, bli_gemv, transView, one_mul, mul_zero, add_zero,
      zero_mul]
  · intro crand i j
    have hcond : ¬(j + 1 + i ≤ j) := by omega
    refine ⟨?_, ?_⟩
    · simp only [syrk_prepare_c, bli_mktrim, bli_mksymm, symmStored]
      simp [hcond]
    · simp only [syrk_prepare_c, bli_mktrim, bli_mksymm, symmStored]
      simp [hcond]
